import Mathlib

/-!
Verification development for the ani-cli web UI server (`main.py`).

The core logic is embedded shallowly:

* directory snapshots (Python dicts `path -> mtime`) become key-unique
  association lists `List (P × Int)` with integer modification times;
* the history file becomes an explicit `HistoryFile` value (missing,
  unparsable, parsed-but-not-a-list, or a parsed list of entries);
* the catalog search RPC becomes an explicit oracle argument of type
  `SearchFn`, whose `Except.error` case models a raised exception;
* strings keep Python's ASCII semantics: `\s` is the ASCII whitespace
  class, `\d` the ASCII digits, `.lower()` maps ASCII letters, and file
  stems are assumed newline-free (Python's `.` does not cross newlines).

Network fetching, poster caching, HTTP routing and HTML are I/O glue and
stay outside the model; the functions below take their results as inputs.
-/

namespace AniCli

/-- Python's regex class `\s` (ASCII range): space, tab, newline, carriage
return, vertical tab, form feed. -/
def isWsChar (c : Char) : Bool :=
  c == ' ' || c == '\t' || c == '\n' || c == '\r' || c == '\x0b' || c == '\x0c'

/-- Python's regex class `\d` (ASCII range). -/
def isDigitChar (c : Char) : Bool :=
  '0' ≤ c && c ≤ '9'

/-- Python `str.strip()` on a character list: drop whitespace at both ends. -/
def pyStripList (cs : List Char) : List Char :=
  ((cs.dropWhile isWsChar).reverse.dropWhile isWsChar).reverse

/-- Python `str.strip()`. -/
def pyStrip (s : String) : String :=
  String.mk (pyStripList s.toList)

/-- Python `str.lower()` (ASCII letters). -/
def pyLower (s : String) : String :=
  String.mk (s.toList.map Char.toLower)

/-- Replace every maximal whitespace run by a single space, as
`re.sub(r"\s+", " ", ...)` does.  The flag records whether the previous
character was part of a whitespace run. -/
def collapseWsAux : Bool → List Char → List Char
  | _, [] => []
  | prevWs, c :: rest =>
    if isWsChar c then
      if prevWs then collapseWsAux true rest
      else ' ' :: collapseWsAux true rest
    else c :: collapseWsAux false rest

/-- `normalize_title` from main.py:
`re.sub(r"\s+", " ", title.strip().lower())`. -/
def normalize_title (title : String) : String :=
  String.mk (collapseWsAux false (pyLower (pyStrip title)).toList)

/-- Python's substring test `needle in hay` for strings. -/
def strContains (hay needle : String) : Bool :=
  (List.range (hay.toList.length + 1)).any
    (fun i => needle.toList.isPrefixOf (hay.toList.drop i))

section Reconciler

variable {P : Type}

/-- One step of Python's `max(..., key=...)`: keep the accumulator unless the
next element's mtime is strictly larger (so ties keep the earlier element). -/
def pickStep (b a : P × Int) : P × Int :=
  if b.2 < a.2 then a else b

/-- Python `max(files, key=lambda p: after[p])` over a (possibly empty)
candidate list, carrying each path with its after-snapshot mtime. -/
def pickMaxQ : List (P × Int) → Option (P × Int)
  | [] => none
  | x :: xs => some (xs.foldl pickStep x)

/-- `new_files`: entries of the after snapshot whose path is absent from the
before snapshot. -/
def newFilesOf [DecidableEq P] (before after : List (P × Int)) : List (P × Int) :=
  after.filter (fun pm => !(before.any (fun qm => decide (qm.1 = pm.1))))

/-- `updated`: entries present in both snapshots whose modification time
strictly increased (`before[p]` is the dict lookup, i.e. `find?`). -/
def updatedOf [DecidableEq P] (before after : List (P × Int)) : List (P × Int) :=
  after.filter (fun pm =>
    match before.find? (fun qm => decide (qm.1 = pm.1)) with
    | some qm => decide (qm.2 < pm.2)
    | none => false)

/-- `recent`: entries whose modification time is at least
`started_at - 1`. -/
def recentOf (after : List (P × Int)) (started_at : Int) : List (P × Int) :=
  after.filter (fun pm => decide (started_at - 1 ≤ pm.2))

/-- `detect_downloaded_file` from main.py, with the after snapshot passed in
(the Python code recomputes it from disk).  Tiered fallback: new files,
then updated files, then recent files, else `None`. -/
def detect_downloaded_file [DecidableEq P] (before after : List (P × Int))
    (started_at : Int) : Option P :=
  match pickMaxQ (newFilesOf before after) with
  | some pm => some pm.1
  | none =>
    match pickMaxQ (updatedOf before after) with
    | some pm => some pm.1
    | none =>
      match pickMaxQ (recentOf after started_at) with
      | some pm => some pm.1
      | none => none

lemma pickStep_eq_or (b a : P × Int) : pickStep b a = a ∨ pickStep b a = b := by
  unfold pickStep
  split <;> simp

lemma pickStep_le_left (b a : P × Int) : b.2 ≤ (pickStep b a).2 := by
  unfold pickStep
  split <;> omega

lemma pickStep_le_right (b a : P × Int) : a.2 ≤ (pickStep b a).2 := by
  unfold pickStep
  split <;> omega

lemma foldl_pickStep_mem (xs : List (P × Int)) :
    ∀ x, xs.foldl pickStep x ∈ x :: xs := by
  induction xs with
  | nil => intro x; simp
  | cons y ys ih =>
    intro x
    simp only [List.foldl_cons]
    have h := ih (pickStep x y)
    rcases List.mem_cons.mp h with h' | h'
    · rw [h']
      rcases pickStep_eq_or x y with he | he <;> rw [he] <;> simp
    · exact List.mem_cons_of_mem _ (List.mem_cons_of_mem _ h')

lemma foldl_pickStep_le (xs : List (P × Int)) :
    ∀ x y, y ∈ x :: xs → y.2 ≤ (xs.foldl pickStep x).2 := by
  induction xs with
  | nil =>
    intro x y hy
    simp only [List.mem_singleton] at hy
    simp [hy]
  | cons z zs ih =>
    intro x y hy
    simp only [List.foldl_cons]
    rcases List.mem_cons.mp hy with h | h
    · calc y.2 = x.2 := by rw [h]
        _ ≤ (pickStep x z).2 := pickStep_le_left x z
        _ ≤ (zs.foldl pickStep (pickStep x z)).2 :=
            ih (pickStep x z) _ (List.mem_cons_self _ _)
    · rcases List.mem_cons.mp h with h' | h'
      · calc y.2 = z.2 := by rw [h']
          _ ≤ (pickStep x z).2 := pickStep_le_right x z
          _ ≤ (zs.foldl pickStep (pickStep x z)).2 :=
              ih (pickStep x z) _ (List.mem_cons_self _ _)
      · exact ih (pickStep x z) y (List.mem_cons_of_mem _ h')

lemma pickMaxQ_spec (l : List (P × Int)) (h : l ≠ []) :
    ∃ pm, pickMaxQ l = some pm ∧ pm ∈ l ∧ ∀ qm ∈ l, qm.2 ≤ pm.2 := by
  cases l with
  | nil => exact absurd rfl h
  | cons x xs =>
    refine ⟨xs.foldl pickStep x, rfl, foldl_pickStep_mem xs x, ?_⟩
    intro qm hq
    exact foldl_pickStep_le xs x qm hq

lemma pickMaxQ_nil : pickMaxQ ([] : List (P × Int)) = none := rfl

lemma pickMaxQ_singleton (x : P × Int) : pickMaxQ [x] = some x := rfl

end Reconciler

/-- C1: for every before-snapshot and after-state with at least one new video
file, `detect_downloaded_file` returns a new file whose modification time is
maximal among the new files; in particular, when exactly one file is new it
returns that file. -/
theorem detect_returns_latest_new_file {P : Type} [DecidableEq P]
    (before after : List (P × Int)) (t : Int)
    (h : newFilesOf before after ≠ []) :
    (∃ pm ∈ newFilesOf before after,
      detect_downloaded_file before after t = some pm.1 ∧
      ∀ qm ∈ newFilesOf before after, qm.2 ≤ pm.2) ∧
    (∀ f, newFilesOf before after = [f] →
      detect_downloaded_file before after t = some f.1) := by
  obtain ⟨pm, hpick, hmem, hmax⟩ := pickMaxQ_spec _ h
  constructor
  · refine ⟨pm, hmem, ?_, hmax⟩
    unfold detect_downloaded_file
    rw [hpick]
  · intro f hf
    unfold detect_downloaded_file
    rw [hf, pickMaxQ_singleton]

theorem detect_returns_latest_new_file_witness :
    newFilesOf [((0 : Nat), (5 : Int))] [(0, 5), (1, 7)] ≠ [] ∧
    detect_downloaded_file [((0 : Nat), (5 : Int))] [(0, 5), (1, 7)] 0 = some 1 := by
  have h : newFilesOf [((0 : Nat), (5 : Int))] [(0, 5), (1, 7)] ≠ [] := by decide
  refine ⟨h, ?_⟩
  exact (detect_returns_latest_new_file _ _ 0 h).2 (1, 7) (by decide)

/-- C5: when no video file is new but at least one file present in both
snapshots has a strictly increased modification time,
`detect_downloaded_file` returns one of those updated files (one with
maximal after-modification time), never a file whose modification time did
not increase. -/
theorem detect_returns_latest_updated_file {P : Type} [DecidableEq P]
    (before after : List (P × Int)) (t : Int)
    (hnew : newFilesOf before after = [])
    (hupd : updatedOf before after ≠ []) :
    ∃ pm ∈ updatedOf before after,
      detect_downloaded_file before after t = some pm.1 ∧
      (∃ qm ∈ before, qm.1 = pm.1 ∧ qm.2 < pm.2) ∧
      ∀ qm ∈ updatedOf before after, qm.2 ≤ pm.2 := by
  obtain ⟨pm, hpick, hmem, hmax⟩ := pickMaxQ_spec _ hupd
  refine ⟨pm, hmem, ?_, ?_, hmax⟩
  · unfold detect_downloaded_file
    rw [hnew, pickMaxQ_nil, hpick]
  · have hpred := List.of_mem_filter hmem
    revert hpred
    cases hfind : before.find? (fun qm => decide (qm.1 = pm.1)) with
    | none => simp
    | some qm =>
      intro hpred
      have hq1 : qm ∈ before := List.mem_of_find?_eq_some hfind
      have hq2 : qm.1 = pm.1 := by
        have := List.find?_some hfind
        simpa using this
      have hq3 : qm.2 < pm.2 := by simpa using hpred
      exact ⟨qm, hq1, hq2, hq3⟩

theorem detect_returns_latest_updated_file_witness :
    updatedOf [((0 : Nat), (5 : Int))] [(0, 7)] ≠ [] ∧
    ∃ pm ∈ updatedOf [((0 : Nat), (5 : Int))] [(0, 7)],
      detect_downloaded_file [((0 : Nat), (5 : Int))] [(0, 7)] 0 = some pm.1 := by
  have h := detect_returns_latest_updated_file [((0 : Nat), (5 : Int))] [(0, 7)] 0
    (by decide) (by decide)
  obtain ⟨pm, hmem, hdet, -, -⟩ := h
  exact ⟨by decide, pm, hmem, hdet⟩

/-- C6: when no file is new, no common file's modification time strictly
increased, and no file's modification time reaches
`invocation_start_time - 1`, `detect_downloaded_file` returns `none`. -/
theorem detect_none_without_candidates {P : Type} [DecidableEq P]
    (before after : List (P × Int)) (t : Int)
    (h1 : ∀ pm ∈ after, ∃ qm ∈ before, qm.1 = pm.1)
    (h2 : ∀ pm ∈ after, ∀ qm ∈ before, qm.1 = pm.1 → pm.2 ≤ qm.2)
    (h3 : ∀ pm ∈ after, pm.2 < t - 1) :
    detect_downloaded_file before after t = none := by
  have hnew : newFilesOf before after = [] := by
    apply List.filter_eq_nil_iff.mpr
    intro pm hpm
    obtain ⟨qm, hq, he⟩ := h1 pm hpm
    simp only [Bool.not_eq_true', Bool.not_eq_false, List.any_eq_true,
      decide_eq_true_eq]
    exact ⟨qm, hq, he⟩
  have hupd : updatedOf before after = [] := by
    apply List.filter_eq_nil_iff.mpr
    intro pm hpm
    cases hfind : before.find? (fun qm => decide (qm.1 = pm.1)) with
    | none => simp [hfind]
    | some qm =>
      have hq1 : qm ∈ before := List.mem_of_find?_eq_some hfind
      have hq2 : qm.1 = pm.1 := by
        have := List.find?_some hfind
        simpa using this
      have := h2 pm hpm qm hq1 hq2
      simp [hfind]
      omega
  have hrec : recentOf after t = [] := by
    apply List.filter_eq_nil_iff.mpr
    intro pm hpm
    have := h3 pm hpm
    simp only [decide_eq_true_eq]
    omega
  unfold detect_downloaded_file
  rw [hnew, hupd, hrec, pickMaxQ_nil]

/-- Outcome of `subprocess.run(cmd, ...)` in the single-episode path: the
downloader binary can be missing (`FileNotFoundError`), another exception
can be raised (reported via `str(exc)`), or the process completes with an
exit code and captured stderr/stdout. -/
inductive RunOutcome where
  | fileNotFound
  | errored (msg : String)
  | completed (returncode : Int) (stderr stdout : String)

/-- Python's `or` on strings: the left operand unless it is empty. -/
def strOr (a b : String) : String :=
  if a = "" then b else a

/-- `download_episode_for_browser` from main.py, with the subprocess outcome
and the before/after snapshots passed in.  Returns `(ok, message,
media_file)`. -/
def download_episode_for_browser {P : Type} [DecidableEq P]
    (outcome : RunOutcome) (before after : List (P × Int)) (started : Int)
    (episode : Int) : Bool × String × Option P :=
  match outcome with
  | .fileNotFound => (false, "ani-cli is not installed or not in PATH", none)
  | .errored msg => (false, msg, none)
  | .completed rc stderr stdout =>
    if rc ≠ 0 then
      (false, pyStrip (strOr stderr (strOr stdout "download failed")), none)
    else
      match detect_downloaded_file before after started with
      | none => (false, "download finished but output file was not detected", none)
      | some f => (true, "Downloaded episode " ++ toString episode, some f)

/-- C7: a single-episode invocation reports success exactly when the
subprocess exits 0 and a result file is detected; a missing binary, a
nonzero exit, and a zero exit without a detected file each yield a failure
with its own message and no media file, and the canonical messages are
pairwise distinct. -/
theorem download_episode_reports {P : Type} [DecidableEq P]
    (outcome : RunOutcome) (before after : List (P × Int))
    (started episode : Int) :
    ((download_episode_for_browser outcome before after started episode).1 = true ↔
      (∃ e o, outcome = .completed 0 e o) ∧
      detect_downloaded_file before after started ≠ none) ∧
    (download_episode_for_browser .fileNotFound before after started episode =
      (false, "ani-cli is not installed or not in PATH", none)) ∧
    (∀ rc e o, rc ≠ 0 →
      download_episode_for_browser (.completed rc e o) before after started episode =
        (false, pyStrip (strOr e (strOr o "download failed")), none)) ∧
    (∀ e o, detect_downloaded_file before after started = none →
      download_episode_for_browser (.completed 0 e o) before after started episode =
        (false, "download finished but output file was not detected", none)) ∧
    (∀ e o f, detect_downloaded_file before after started = some f →
      download_episode_for_browser (.completed 0 e o) before after started episode =
        (true, "Downloaded episode " ++ toString episode, some f)) ∧
    ("ani-cli is not installed or not in PATH" ≠
      "download finished but output file was not detected" ∧
     pyStrip (strOr "" (strOr "" "download failed")) = "download failed" ∧
     "download failed" ≠ "ani-cli is not installed or not in PATH" ∧
     "download failed" ≠ "download finished but output file was not detected") := by
  refine ⟨?_, rfl, ?_, ?_, ?_, by decide, by decide, by decide, by decide⟩
  · cases outcome with
    | fileNotFound => simp [download_episode_for_browser]
    | errored m => simp [download_episode_for_browser]
    | completed rc e o =>
      by_cases hrc : rc = 0
      · subst hrc
        cases hdet : detect_downloaded_file before after started with
        | none => simp [download_episode_for_browser, hdet]
        | some f =>
          simp only [download_episode_for_browser, if_neg (by decide : ¬((0 : Int) ≠ 0)), hdet]
          simp [hdet]
      · simp [download_episode_for_browser, hrc]
  · intro rc e o hrc
    simp [download_episode_for_browser, hrc]
  · intro e o hdet
    simp [download_episode_for_browser, hdet]
  · intro e o f hdet
    simp [download_episode_for_browser, hdet]

theorem download_episode_reports_witness :
    ((1 : Int) ≠ 0) ∧
    download_episode_for_browser (.completed 1 "boom" "")
      ([] : List (Nat × Int)) [] 0 3 = (false, "boom", none) := by
  refine ⟨by decide, ?_⟩
  have h := (download_episode_reports (P := Nat) (.completed 1 "boom" "")
    [] [] 0 3).2.2.1 1 "boom" "" (by decide)
  rw [h]
  decide

/-- A history entry as persisted by `append_history`: a timestamp, an event
kind, and the two `details` fields the core logic reads back (`anime` as
coerced by `str(details.get("anime") or "")`, `episodes` as coerced by
`int(details.get("episodes") or 0)`).  The remaining detail fields are only
rendered by the UI. -/
structure HistoryEntry where
  time : String
  event : String
  anime : String
  episodes : Int
  deriving DecidableEq

/-- The state of `history.json` on disk: absent, unparsable JSON, JSON that
is not a list, or a parsed JSON list of entries. -/
inductive HistoryFile where
  | missing
  | invalidJson
  | nonList
  | jsonList (items : List HistoryEntry)
  deriving DecidableEq

/-- Python's slice `l[-n:]`: the last `n` elements (all of them when the
list is shorter). -/
def lastN {α : Type} (n : Nat) (l : List α) : List α :=
  l.drop (l.length - n)

/-- `load_history` from main.py: missing, unparsable, or non-list content
yields `[]`; a parsed list is truncated to `data[-10:]`. -/
def load_history : HistoryFile → List HistoryEntry
  | .missing => []
  | .invalidJson => []
  | .nonList => []
  | .jsonList items => lastN 10 items

/-- `append_history` from main.py (`save_history` persists the truncated
list, so the new file state is the JSON list `(load ++ [event])[-10:]`). -/
def append_history (f : HistoryFile) (e : HistoryEntry) : HistoryFile :=
  .jsonList (lastN 10 (load_history f ++ [e]))

/-- `latest_history` from main.py: `list(reversed(items[-limit:]))`. -/
def latest_history (limit : Nat) (f : HistoryFile) : List HistoryEntry :=
  (lastN limit (load_history f)).reverse

section LastN

variable {α : Type}

lemma lastN_length_le (n : Nat) (l : List α) : (lastN n l).length ≤ n := by
  simp only [lastN, List.length_drop]
  omega

lemma lastN_of_length_le {n : Nat} {l : List α} (h : l.length ≤ n) :
    lastN n l = l := by
  simp [lastN, Nat.sub_eq_zero_of_le h]

lemma lastN_eq_reverse_take (n : Nat) (l : List α) :
    lastN n l = (l.reverse.take n).reverse := by
  induction l with
  | nil => simp [lastN]
  | cons x xs ih =>
    rcases le_or_lt (xs.length + 1) n with h | h
    · rw [lastN_of_length_le (by simpa using h)]
      rw [List.take_of_length_le (by simpa using h), List.reverse_reverse]
    · have hdrop : lastN n (x :: xs) = lastN n xs := by
        simp only [lastN, List.length_cons]
        have hk : xs.length + 1 - n = (xs.length - n) + 1 := by omega
        rw [hk, List.drop_succ_cons]
      rw [hdrop, ih]
      congr 1
      rw [List.reverse_cons, List.take_append_of_le_length (by simp; omega)]

lemma take_append_take (n : Nat) (a b : List α) :
    (a ++ b.take n).take n = (a ++ b).take n := by
  rw [List.take_append_eq_append_take, List.take_append_eq_append_take,
    List.take_take]
  congr 1
  rw [Nat.min_eq_left (Nat.sub_le n a.length)]

lemma lastN_append_lastN (n : Nat) (l m : List α) :
    lastN n (lastN n l ++ m) = lastN n (l ++ m) := by
  rw [lastN_eq_reverse_take (l := lastN n l ++ m), lastN_eq_reverse_take (l := l ++ m)]
  congr 1
  rw [List.reverse_append, List.reverse_append, lastN_eq_reverse_take,
    List.reverse_reverse, take_append_take]

end LastN

lemma load_history_length_le (f : HistoryFile) : (load_history f).length ≤ 10 := by
  cases f with
  | jsonList items => exact lastN_length_le 10 items
  | missing => simp [load_history]
  | invalidJson => simp [load_history]
  | nonList => simp [load_history]

lemma load_append_history (f : HistoryFile) (e : HistoryEntry) :
    load_history (append_history f e) = lastN 10 (load_history f ++ [e]) := by
  show lastN 10 (lastN 10 (load_history f ++ [e])) = _
  exact lastN_of_length_le (lastN_length_le 10 _)

lemma load_foldl_append (es : List HistoryEntry) :
    ∀ f, load_history (es.foldl append_history f) =
      lastN 10 (load_history f ++ es) := by
  induction es with
  | nil =>
    intro f
    simp only [List.foldl_nil, List.append_nil]
    exact (lastN_of_length_le (load_history_length_le f)).symm
  | cons e es ih =>
    intro f
    rw [List.foldl_cons, ih, load_append_history, lastN_append_lastN]
    congr 1
    simp

lemma foldl_append_history_ne_nil (es : List HistoryEntry) :
    ∀ f, es ≠ [] → ∃ f' e', es.foldl append_history f = append_history f' e' := by
  induction es with
  | nil => intro f h; exact absurd rfl h
  | cons e es ih =>
    intro f _
    cases es with
    | nil => exact ⟨f, e, rfl⟩
    | cons e2 es2 =>
      rw [List.foldl_cons]
      exact ih (append_history f e) (by simp)

/-- C4: after every append (however many appends have happened) the
persisted history log holds at most 10 entries; starting from an empty
store, the log after appending `es` in order is exactly the last 10 of
`es`, and reading recent history returns them newest-first (in particular
the entry just appended comes first). -/
theorem history_bounded_and_newest_first :
    (∀ (f : HistoryFile) (es : List HistoryEntry) (l : List HistoryEntry),
      es ≠ [] → es.foldl append_history f = .jsonList l → l.length ≤ 10) ∧
    (∀ es : List HistoryEntry,
      load_history (es.foldl append_history .missing) = lastN 10 es ∧
      latest_history 10 (es.foldl append_history .missing) = (lastN 10 es).reverse) ∧
    (∀ (f : HistoryFile) (e : HistoryEntry),
      (latest_history 10 (append_history f e)).head? = some e) := by
  refine ⟨?_, ?_, ?_⟩
  · intro f es l hne hfold
    obtain ⟨f', e', hf'⟩ := foldl_append_history_ne_nil es f hne
    rw [hf'] at hfold
    have : lastN 10 (load_history f' ++ [e']) = l := by
      injection hfold
    rw [← this]
    exact lastN_length_le 10 _
  · intro es
    have hload := load_foldl_append es HistoryFile.missing
    rw [show load_history HistoryFile.missing = [] from rfl, List.nil_append] at hload
    refine ⟨hload, ?_⟩
    unfold latest_history
    rw [hload, lastN_of_length_le (lastN_length_le 10 es)]
  · intro f e
    unfold latest_history
    rw [load_append_history,
      lastN_of_length_le (lastN_length_le 10 (load_history f ++ [e])),
      lastN_eq_reverse_take, List.reverse_reverse, List.reverse_append]
    simp

theorem history_bounded_and_newest_first_witness :
    ((List.range 12).map (fun k => HistoryEntry.mk "" "" "" k) ≠ []) ∧
    ((List.range 12).map (fun k => HistoryEntry.mk "" "" "" k)).foldl
      append_history .missing =
      .jsonList ((List.range 12).map (fun k => HistoryEntry.mk "" "" "" k)).tail.tail ∧
    (((List.range 12).map (fun k => HistoryEntry.mk "" "" "" k)).tail.tail.length ≤ 10) := by
  refine ⟨by decide, by decide, ?_⟩
  exact (history_bounded_and_newest_first).1 .missing
    ((List.range 12).map (fun k => HistoryEntry.mk "" "" "" k)) _ (by decide) (by decide)

/-- C9: a missing, unparsable, or non-list history file loads as the empty
list, and behaves exactly like an empty stored log for loading, appending
and reading recent entries. -/
theorem corrupt_history_behaves_as_empty :
    load_history .missing = [] ∧
    load_history .invalidJson = [] ∧
    load_history .nonList = [] ∧
    (∀ l, load_history (.jsonList l) = lastN 10 l) ∧
    (∀ e, append_history .missing e = append_history (.jsonList []) e ∧
          append_history .invalidJson e = append_history (.jsonList []) e ∧
          append_history .nonList e = append_history (.jsonList []) e) ∧
    (∀ limit, latest_history limit .missing = latest_history limit (.jsonList []) ∧
              latest_history limit .invalidJson = latest_history limit (.jsonList []) ∧
              latest_history limit .nonList = latest_history limit (.jsonList [])) :=
  ⟨rfl, rfl, rfl, fun _ => rfl, fun _ => ⟨rfl, rfl, rfl⟩, fun _ => ⟨rfl, rfl, rfl⟩⟩

theorem detect_none_without_candidates_witness :
    (∀ pm ∈ [((0 : Nat), (5 : Int))], ∃ qm ∈ [((0 : Nat), (5 : Int))], qm.1 = pm.1) ∧
    (∀ pm ∈ [((0 : Nat), (5 : Int))], ∀ qm ∈ [((0 : Nat), (5 : Int))],
      qm.1 = pm.1 → pm.2 ≤ qm.2) ∧
    (∀ pm ∈ [((0 : Nat), (5 : Int))], pm.2 < (10 : Int) - 1) ∧
    detect_downloaded_file [((0 : Nat), (5 : Int))] [((0 : Nat), (5 : Int))] 10 = none :=
  ⟨by decide, by decide, by decide,
    detect_none_without_candidates _ _ 10 (by decide) (by decide) (by decide)⟩



/-- Consume `\s+`: require at least one whitespace character, then take the
maximal whitespace run.  Greedy matching is complete here because in
`EPISODE_NAME_RE` the atom after each `\s+` starts with a non-whitespace
character. -/
def dropWs1 : List Char → Option (List Char)
  | [] => none
  | c :: rest => if isWsChar c then some (rest.dropWhile isWsChar) else none

/-- Match a literal (given lowercase) case-insensitively, as `re.IGNORECASE`
does for `Episode`, returning the rest of the input. -/
def stripCI : List Char → List Char → Option (List Char)
  | [], rest => some rest
  | _ :: _, [] => none
  | l :: ls, c :: rest => if c.toLower = l then stripCI ls rest else none

/-- Numeric value of a digit string: `int(...)` on a `\d+` match. -/
def digitsVal (cs : List Char) : Nat :=
  cs.foldl (fun n c => n * 10 + (c.toNat - 48)) 0

/-- Match `\s+Episode\s+(\d+)$` (case-insensitive) against the whole input,
returning the episode number. -/
def matchTail (cs : List Char) : Option Nat :=
  match dropWs1 cs with
  | none => none
  | some r1 =>
    match stripCI "episode".toList r1 with
    | none => none
    | some r2 =>
      match dropWs1 r2 with
      | none => none
      | some r3 =>
        if r3 ≠ [] ∧ r3.all isDigitChar then some (digitsVal r3) else none

/-- The lazy group `(?P<title>.+?)`: try the shortest nonempty title prefix
whose remainder matches `matchTail`.  `titleRev` holds the reversed prefix
consumed so far. -/
def episodeMatchAux (titleRev : List Char) : List Char → Option (List Char × Nat)
  | [] => none
  | c :: rest =>
    match matchTail rest with
    | some n => some ((c :: titleRev).reverse, n)
    | none => episodeMatchAux (c :: titleRev) rest

/-- `EPISODE_NAME_RE.match(stem)` for
`^(?P<title>.+?)\s+Episode\s+(?P<ep>\d+)$` with `re.IGNORECASE`: the title
group and episode number, or `none`. -/
def episodeMatch (cs : List Char) : Option (List Char × Nat) :=
  episodeMatchAux [] cs

/-- Title/episode derivation shared by `list_library_groups` and
`history_summaries`: a matching stem yields the stripped title group and
the episode number; a non-matching stem yields the whole stem with
episode 1. -/
def parseStem (stem : String) : String × Nat :=
  match episodeMatch stem.toList with
  | some (titleChars, ep) => (pyStrip (String.mk titleChars), ep)
  | none => (stem, 1)

/-- Specification predicate (from the spec's reading of the regex): `tail`
matches `\s+Episode\s+(\d+)$` case-insensitively with episode value `n`. -/
def TailMatches (tail : List Char) (n : Nat) : Prop :=
  ∃ w1 l w2 d, tail = w1 ++ l ++ w2 ++ d ∧
    w1 ≠ [] ∧ w1.all isWsChar ∧
    l.map Char.toLower = "episode".toList ∧
    w2 ≠ [] ∧ w2.all isWsChar ∧
    d ≠ [] ∧ d.all isDigitChar ∧ n = digitsVal d

/-- Specification predicate: the stem matches the `"<Title> Episode <N>"`
convention for some nonempty title prefix and episode number. -/
def StemMatches (cs : List Char) : Prop :=
  ∃ t n tail, t ≠ [] ∧ cs = t ++ tail ∧ TailMatches tail n

lemma ws_char_cases {c : Char} (h : isWsChar c = true) :
    c = ' ' ∨ c = '\t' ∨ c = '\n' ∨ c = '\r' ∨ c = '\x0b' ∨ c = '\x0c' := by
  simp only [isWsChar, Bool.or_eq_true, beq_iff_eq] at h
  tauto

lemma toLower_fixed_of_ws {c : Char} (h : isWsChar c = true) : c.toLower = c := by
  rcases ws_char_cases h with rfl | rfl | rfl | rfl | rfl | rfl <;> decide

lemma not_ws_of_toLower_e {c : Char} (h : c.toLower = 'e') : isWsChar c = false := by
  by_contra hc
  rw [Bool.not_eq_false] at hc
  rw [toLower_fixed_of_ws hc] at h
  subst h
  exact absurd hc (by decide)

lemma not_ws_of_digit {c : Char} (h : isDigitChar c = true) : isWsChar c = false := by
  by_contra hc
  rw [Bool.not_eq_false] at hc
  rcases ws_char_cases hc with rfl | rfl | rfl | rfl | rfl | rfl <;>
    exact absurd h (by decide)

lemma dropWhile_append_of_all {p : Char → Bool} {w rest : List Char}
    (hw : ∀ c ∈ w, p c = true) :
    (w ++ rest).dropWhile p = rest.dropWhile p := by
  induction w with
  | nil => rfl
  | cons c w' ih =>
    rw [List.cons_append, List.dropWhile_cons_of_pos (hw c (List.mem_cons_self c w'))]
    exact ih (fun x hx => hw x (List.mem_cons_of_mem c hx))

lemma dropWs1_sound {cs rest : List Char} (h : dropWs1 cs = some rest) :
    ∃ w, w ≠ [] ∧ (∀ c ∈ w, isWsChar c = true) ∧ cs = w ++ rest := by
  cases cs with
  | nil => exact absurd h (by simp [dropWs1])
  | cons c cs' =>
    simp only [dropWs1] at h
    split at h
    · injection h with h'
      refine ⟨c :: cs'.takeWhile isWsChar, by simp, ?_, ?_⟩
      · intro x hx
        rcases List.mem_cons.mp hx with rfl | hx'
        · assumption
        · exact List.mem_takeWhile_imp hx'
      · rw [← h', List.cons_append, List.takeWhile_append_dropWhile]
    · exact absurd h (by simp)

lemma dropWs1_complete {w rest : List Char} (hne : w ≠ [])
    (hw : ∀ c ∈ w, isWsChar c = true)
    (hr : ∀ r rs, rest = r :: rs → isWsChar r = false) :
    dropWs1 (w ++ rest) = some rest := by
  cases w with
  | nil => exact absurd rfl hne
  | cons c w' =>
    rw [List.cons_append]
    simp only [dropWs1]
    rw [if_pos (hw c (List.mem_cons_self c w'))]
    congr 1
    rw [dropWhile_append_of_all (fun x hx => hw x (List.mem_cons_of_mem c hx))]
    cases rest with
    | nil => rfl
    | cons r rs => exact List.dropWhile_cons_of_neg (by simp [hr r rs rfl])

lemma stripCI_sound :
    ∀ (ls cs rest : List Char), stripCI ls cs = some rest →
      ∃ l, cs = l ++ rest ∧ l.map Char.toLower = ls := by
  intro ls
  induction ls with
  | nil =>
    intro cs rest h
    injection h with h'
    exact ⟨[], by simp [h'], rfl⟩
  | cons a as ih =>
    intro cs rest h
    cases cs with
    | nil => exact absurd h (by simp [stripCI])
    | cons c cs' =>
      simp only [stripCI] at h
      split at h
      next hca =>
        obtain ⟨l, hl1, hl2⟩ := ih cs' rest h
        exact ⟨c :: l, by simp [hl1], by simp [hl2, hca]⟩
      next => exact absurd h (by simp)

lemma stripCI_complete :
    ∀ (l rest : List Char), stripCI (l.map Char.toLower) (l ++ rest) = some rest := by
  intro l
  induction l with
  | nil => intro rest; rfl
  | cons c l' ih =>
    intro rest
    simp only [List.map_cons, List.cons_append, stripCI, if_pos rfl]
    exact ih rest

lemma matchTail_sound {cs : List Char} {n : Nat} (h : matchTail cs = some n) :
    TailMatches cs n := by
  unfold matchTail at h
  cases h1 : dropWs1 cs with
  | none => simp only [h1] at h; exact Option.noConfusion h
  | some r1 =>
    simp only [h1] at h
    cases h2 : stripCI "episode".toList r1 with
    | none => simp only [h2] at h; exact Option.noConfusion h
    | some r2 =>
      simp only [h2] at h
      cases h3 : dropWs1 r2 with
      | none => simp only [h3] at h; exact Option.noConfusion h
      | some r3 =>
        simp only [h3] at h
        split at h
        next hcond =>
          injection h with h'
          obtain ⟨w1, hw1ne, hw1, rfl⟩ := dropWs1_sound h1
          obtain ⟨l, rfl, hl⟩ := stripCI_sound _ _ _ h2
          obtain ⟨w2, hw2ne, hw2, rfl⟩ := dropWs1_sound h3
          exact ⟨w1, l, w2, r3, by simp, hw1ne, List.all_eq_true.mpr hw1, hl,
            hw2ne, List.all_eq_true.mpr hw2, hcond.1, hcond.2, h'.symm⟩
        next => exact absurd h (by simp)

lemma matchTail_complete {cs : List Char} {n : Nat} (h : TailMatches cs n) :
    matchTail cs = some n := by
  obtain ⟨w1, l, w2, d, rfl, hw1ne, hw1, hl, hw2ne, hw2, hdne, hd, rfl⟩ := h
  obtain ⟨c, ls, rfl, hce⟩ : ∃ c ls, l = c :: ls ∧ c.toLower = 'e' := by
    cases l with
    | nil => exact absurd hl (by decide)
    | cons c ls =>
      refine ⟨c, ls, rfl, ?_⟩
      rw [List.map_cons] at hl
      injection hl
  obtain ⟨c2, ds, rfl, hc2⟩ : ∃ c2 ds, d = c2 :: ds ∧ isDigitChar c2 = true := by
    cases d with
    | nil => exact absurd rfl hdne
    | cons c2 ds =>
      exact ⟨c2, ds, rfl, List.all_eq_true.mp hd c2 (List.mem_cons_self c2 ds)⟩
  have e1 : dropWs1 (w1 ++ ((c :: ls) ++ (w2 ++ c2 :: ds))) =
      some ((c :: ls) ++ (w2 ++ c2 :: ds)) := by
    refine dropWs1_complete hw1ne (List.all_eq_true.mp hw1) ?_
    intro r rs hr
    rw [List.cons_append] at hr
    injection hr with hr1 _
    subst hr1
    exact not_ws_of_toLower_e hce
  have e2 : stripCI "episode".toList ((c :: ls) ++ (w2 ++ c2 :: ds)) =
      some (w2 ++ c2 :: ds) := by
    rw [← hl]
    exact stripCI_complete (c :: ls) (w2 ++ c2 :: ds)
  have e3 : dropWs1 (w2 ++ c2 :: ds) = some (c2 :: ds) := by
    refine dropWs1_complete hw2ne (List.all_eq_true.mp hw2) ?_
    intro r rs hr
    injection hr with hr1 _
    subst hr1
    exact not_ws_of_digit hc2
  have hassoc : ((w1 ++ (c :: ls)) ++ w2) ++ (c2 :: ds) =
      w1 ++ ((c :: ls) ++ (w2 ++ c2 :: ds)) := by simp
  rw [show (w1 ++ (c :: ls) ++ w2 ++ c2 :: ds) =
    w1 ++ ((c :: ls) ++ (w2 ++ c2 :: ds)) from hassoc]
  unfold matchTail
  simp only [e1, e2, e3]
  simp [hd]

lemma episodeMatchAux_sound :
    ∀ (cs tr t : List Char) (n : Nat),
      episodeMatchAux tr cs = some (t, n) →
      ∃ t' tail, t' ≠ [] ∧ t = tr.reverse ++ t' ∧ cs = t' ++ tail ∧
        matchTail tail = some n := by
  intro cs
  induction cs with
  | nil => intro tr t n h; exact absurd h (by simp [episodeMatchAux])
  | cons c rest ih =>
    intro tr t n h
    simp only [episodeMatchAux] at h
    cases hmt : matchTail rest with
    | some m =>
      rw [hmt] at h
      injection h with h'
      injection h' with hA hB
      subst hA
      subst hB
      exact ⟨[c], rest, by simp, by simp, rfl, hmt⟩
    | none =>
      rw [hmt] at h
      obtain ⟨t', tail, ht'ne, rfl, hsplit, hmt'⟩ := ih (c :: tr) t n h
      exact ⟨c :: t', tail, by simp, by simp, by simp [hsplit], hmt'⟩

lemma episodeMatchAux_none :
    ∀ (cs tr : List Char), episodeMatchAux tr cs = none →
      ∀ t tail, t ≠ [] → cs = t ++ tail → matchTail tail = none := by
  intro cs
  induction cs with
  | nil =>
    intro tr _ t tail htne heq
    cases t with
    | nil => exact absurd rfl htne
    | cons a t' => exact absurd heq (by simp)
  | cons c rest ih =>
    intro tr h t tail htne heq
    simp only [episodeMatchAux] at h
    cases hmt : matchTail rest with
    | some m => rw [hmt] at h; exact Option.noConfusion h
    | none =>
      rw [hmt] at h
      cases t with
      | nil => exact absurd rfl htne
      | cons c0 t' =>
        rw [List.cons_append] at heq
        injection heq with h1 h2
        cases t' with
        | nil =>
          rw [List.nil_append] at h2
          rw [← h2]
          exact hmt
        | cons d t'' =>
          exact ih (c :: tr) h (d :: t'') tail (by simp) h2

lemma episodeMatchAux_min :
    ∀ (cs tr t : List Char) (n : Nat),
      episodeMatchAux tr cs = some (t, n) →
      ∀ t2 n2 tail2, t2 ≠ [] → cs = t2 ++ tail2 → TailMatches tail2 n2 →
        t.length ≤ tr.length + t2.length := by
  intro cs
  induction cs with
  | nil => intro tr t n h; exact absurd h (by simp [episodeMatchAux])
  | cons c rest ih =>
    intro tr t n h t2 n2 tail2 ht2 heq htm
    simp only [episodeMatchAux] at h
    cases hmt : matchTail rest with
    | some m =>
      rw [hmt] at h
      injection h with h'
      injection h' with hA hB
      subst hA
      cases t2 with
      | nil => exact absurd rfl ht2
      | cons c2 t2' =>
        simp only [List.length_reverse, List.length_cons]
        omega
    | none =>
      rw [hmt] at h
      cases t2 with
      | nil => exact absurd rfl ht2
      | cons c2 t2' =>
        rw [List.cons_append] at heq
        injection heq with h1 h2
        cases t2' with
        | nil =>
          exfalso
          rw [List.nil_append] at h2
          have hcomp := matchTail_complete htm
          rw [← h2] at hcomp
          rw [hcomp] at hmt
          exact Option.noConfusion hmt
        | cons d t2'' =>
          have hle := ih (c :: tr) t n h (d :: t2'') n2 tail2 (by simp) h2 htm
          simp only [List.length_cons] at hle ⊢
          omega

lemma stemMatches_of_episodeMatch {cs t : List Char} {n : Nat}
    (h : episodeMatch cs = some (t, n)) : StemMatches cs := by
  obtain ⟨t', tail, ht'ne, htv, hsplit, hmt⟩ := episodeMatchAux_sound cs [] t n h
  exact ⟨t', n, tail, ht'ne, hsplit, matchTail_sound hmt⟩

/-- C8: filename parsing applies `"<Title> Episode <N>"` case-insensitively
to the stem: a stem that does not match the convention becomes the
single-episode pseudo-title `(stem, 1)` (e.g. `"Random Clip"`); a matching
stem yields the trimmed title group (the shortest title prefix, as the lazy
`.+?` group requires) and the episode number
(e.g. `"Show A Episode 3" -> ("Show A", 3)`). -/
theorem filename_convention_parsing (stem : String) :
    (¬ StemMatches stem.toList → parseStem stem = (stem, 1)) ∧
    (StemMatches stem.toList →
      ∃ t n tail, t ≠ [] ∧ stem.toList = t ++ tail ∧ TailMatches tail n ∧
        parseStem stem = (pyStrip (String.mk t), n) ∧
        ∀ t2 n2 tail2, t2 ≠ [] → stem.toList = t2 ++ tail2 →
          TailMatches tail2 n2 → t.length ≤ t2.length) ∧
    parseStem "Random Clip" = ("Random Clip", 1) ∧
    parseStem "Show A Episode 3" = ("Show A", 3) := by
  refine ⟨?_, ?_, by decide, by decide⟩
  · intro hns
    unfold parseStem
    cases hEM : episodeMatch stem.toList with
    | none => rfl
    | some pr =>
      obtain ⟨tc, nv⟩ := pr
      exact absurd (stemMatches_of_episodeMatch hEM) hns
  · intro hs
    cases hEM : episodeMatch stem.toList with
    | none =>
      exfalso
      obtain ⟨t2, n2, tail2, ht2, heq, htm⟩ := hs
      have hnone := episodeMatchAux_none stem.toList [] hEM t2 tail2 ht2 heq
      rw [matchTail_complete htm] at hnone
      exact Option.noConfusion hnone
    | some pr =>
      obtain ⟨tc, nv⟩ := pr
      obtain ⟨t', tail, ht'ne, htv, hsplit, hmt⟩ :=
        episodeMatchAux_sound stem.toList [] tc nv hEM
      have ht : tc = t' := by simpa using htv
      subst ht
      refine ⟨tc, nv, tail, ht'ne, hsplit, matchTail_sound hmt, ?_, ?_⟩
      · simp only [parseStem, hEM]
      · intro t2 n2 tail2 ht2 heq htm2
        have hle := episodeMatchAux_min stem.toList [] tc nv hEM t2 n2 tail2 ht2 heq htm2
        simpa using hle

theorem filename_convention_parsing_witness :
    (¬ StemMatches ("Random Clip" : String).toList) ∧
    parseStem "Random Clip" = ("Random Clip", 1) := by
  have hnone : episodeMatch ("Random Clip" : String).toList = none := by decide
  have hns : ¬ StemMatches ("Random Clip" : String).toList := by
    rintro ⟨t2, n2, tail2, ht2, heq, htm⟩
    have h := episodeMatchAux_none ("Random Clip" : String).toList [] hnone t2 tail2 ht2 heq
    rw [matchTail_complete htm] at h
    exact Option.noConfusion h
  exact ⟨hns, (filename_convention_parsing "Random Clip").1 hns⟩

/-- A normalized catalog search result (`AnimeResult` in main.py). -/
structure AnimeResult where
  id : String
  name : String
  episodes : Int
  image_url : String
  deriving DecidableEq

/-- The catalog search collaborator `search_anime(query, mode)`;
`Except.error` models a raised exception. -/
def SearchFn : Type :=
  String → String → Except Unit (List AnimeResult)

/-- `best_search_match` from main.py: `None` on empty results, else the
first exact normalized match, else the first result related to the query
by substring containment in either direction, else the first result. -/
def best_search_match (query : String) (results : List AnimeResult) :
    Option AnimeResult :=
  if results = [] then none
  else
    match results.find? (fun item =>
        decide (normalize_title item.name = normalize_title query)) with
    | some item => some item
    | none =>
      match results.find? (fun item =>
          strContains (normalize_title item.name) (normalize_title query) ||
          strContains (normalize_title query) (normalize_title item.name)) with
      | some item => some item
      | none => results.head?

/-- Loop body of the history scan in `infer_total_episodes`. -/
def cachedStep (title : String) (cached : Int) (item : HistoryEntry) : Int :=
  if normalize_title item.anime = normalize_title title ∧ cached < item.episodes
  then item.episodes else cached

/-- The history scan in `infer_total_episodes`: the largest positive
recorded episode count among normalized title matches (0 when none). -/
def cachedEpisodes (history : List HistoryEntry) (title : String) : Int :=
  history.foldl (cachedStep title) 0

/-- One iteration of the `for mode in ("dub", "sub")` loop in
`infer_total_episodes`: `none` when the search raised or found no usable
match. -/
def tryMode (search : SearchFn) (title mode : String) : Option Int :=
  match search title mode with
  | .error _ => none
  | .ok results =>
    match best_search_match title results with
    | some m => some m.episodes
    | none => none

/-- `infer_total_episodes` from main.py, with the loaded history and the
search collaborator passed in explicitly. -/
def infer_total_episodes (history : List HistoryEntry) (search : SearchFn)
    (title : String) : Int :=
  if 0 < cachedEpisodes history title then cachedEpisodes history title
  else
    match tryMode search title "dub" with
    | some e => e
    | none =>
      match tryMode search title "sub" with
      | some e => e
      | none => 0

/-- A video file in the download directory: stem, full name, modification
time (directory scanning and the video-extension filter are I/O and happen
before this model). -/
structure LibFile where
  stem : String
  name : String
  mtime : Int
  deriving DecidableEq

/-- In-progress per-title group state (`groups[title]` in
`list_library_groups`). -/
structure Group where
  title : String
  downloaded_episodes : List Nat
  files_by_episode : List (Nat × String)
  latest_mtime : Int
  deriving DecidableEq

/-- Python dict insert-or-replace keyed by episode number
(`group["files_by_episode"][str(episode)] = ...`). -/
def dictInsert (k : Nat) (v : String) : List (Nat × String) → List (Nat × String)
  | [] => [(k, v)]
  | kv :: rest => if kv.1 = k then (k, v) :: rest else kv :: dictInsert k v rest

/-- One iteration of the directory loop in `list_library_groups`:
`groups.setdefault(title, ...)` then the per-file updates.  The stored
record keeps the filename; `media_url` is derived from it by URL-quoting
and is not modeled. -/
def addFile (gs : List Group) (f : LibFile) : List Group :=
  if gs.any (fun g => decide (g.title = (parseStem f.stem).1)) then
    gs.map (fun g =>
      if g.title = (parseStem f.stem).1 then
        { g with
          downloaded_episodes := g.downloaded_episodes ++ [(parseStem f.stem).2]
          files_by_episode := dictInsert (parseStem f.stem).2 f.name g.files_by_episode
          latest_mtime := max g.latest_mtime f.mtime }
      else g)
  else
    gs ++ [{ title := (parseStem f.stem).1
             downloaded_episodes := [(parseStem f.stem).2]
             files_by_episode := [((parseStem f.stem).2, f.name)]
             latest_mtime := max 0 f.mtime }]

/-- Python `max(list)` over a list of naturals (the code only applies it to
nonempty lists, where the 0 default is absorbed). -/
def listMaxNat (l : List Nat) : Nat :=
  l.foldl Nat.max 0

/-- A finalized library entry (poster fields are produced by network I/O
and are not modeled). -/
structure LibraryEntry where
  title : String
  total_episodes : Int
  downloaded_episodes : List Nat
  files_by_episode : List (Nat × String)
  downloaded_count : Nat
  latest_mtime : Int
  deriving DecidableEq

/-- `sorted(set(int(ep) for ep in group["downloaded_episodes"]))`. -/
def downloadedSorted (g : Group) : List Nat :=
  List.insertionSort (· ≤ ·) g.downloaded_episodes.dedup

/-- `max(downloaded_sorted) if downloaded_sorted else 1`, as an integer. -/
def maxDownloaded (g : Group) : Int :=
  if downloadedSorted g = [] then 1 else (listMaxNat (downloadedSorted g) : Int)

/-- Per-title finalization in `list_library_groups`: total-episode
inference reconciled with disk evidence
(`if total_episodes < max(downloaded): total_episodes = max(downloaded)`). -/
def finalizeGroup (history : List HistoryEntry) (search : SearchFn)
    (g : Group) : LibraryEntry :=
  { title := g.title
    total_episodes :=
      if infer_total_episodes history search g.title < maxDownloaded g
      then maxDownloaded g else infer_total_episodes history search g.title
    downloaded_episodes := downloadedSorted g
    files_by_episode := g.files_by_episode
    downloaded_count := (downloadedSorted g).length
    latest_mtime := g.latest_mtime }

/-- `list_library_groups` from main.py over the scanned video files, the
loaded history and the search collaborator; entries are ordered newest
first (`result.sort(key=lambda x: x["latest_mtime"], reverse=True)`). -/
def list_library_groups (files : List LibFile) (history : List HistoryEntry)
    (search : SearchFn) : List LibraryEntry :=
  List.insertionSort (fun a b => b.latest_mtime ≤ a.latest_mtime)
    ((files.foldl addFile []).map (finalizeGroup history search))

lemma cachedFold_spec (title : String) :
    ∀ (history : List HistoryEntry) (a : Int),
      a ≤ history.foldl (cachedStep title) a ∧
      (history.foldl (cachedStep title) a = a ∨
        ∃ e ∈ history, normalize_title e.anime = normalize_title title ∧
          e.episodes = history.foldl (cachedStep title) a) ∧
      (∀ e ∈ history, normalize_title e.anime = normalize_title title →
        e.episodes ≤ history.foldl (cachedStep title) a) := by
  intro history
  induction history with
  | nil =>
    intro a
    refine ⟨le_refl a, Or.inl rfl, ?_⟩
    intro e he
    exact absurd he (List.not_mem_nil e)
  | cons e es ih =>
    intro a
    have hstep : a ≤ cachedStep title a e := by
      unfold cachedStep
      split <;> omega
    obtain ⟨ih1, ih2, ih3⟩ := ih (cachedStep title a e)
    rw [List.foldl_cons]
    refine ⟨le_trans hstep ih1, ?_, ?_⟩
    · rcases ih2 with h | ⟨e', he', hm', hv'⟩
      · rw [h]
        unfold cachedStep
        split
        next hc => exact Or.inr ⟨e, List.mem_cons_self e es, hc.1, rfl⟩
        next => exact Or.inl rfl
      · exact Or.inr ⟨e', List.mem_cons_of_mem e he', hm', hv'⟩
    · intro e' he' hm'
      rcases List.mem_cons.mp he' with rfl | h'
      · have : e'.episodes ≤ cachedStep title a e' := by
          unfold cachedStep
          split
          next => omega
          next hc =>
            push_neg at hc
            exact hc hm'
        exact le_trans this ih1
      · exact ih3 e' h' hm'

lemma cachedEpisodes_nonneg (history : List HistoryEntry) (title : String) :
    0 ≤ cachedEpisodes history title :=
  (cachedFold_spec title history 0).1

lemma cachedEpisodes_eq_zero_of_no_match {history : List HistoryEntry}
    {title : String}
    (hno : ∀ e ∈ history, normalize_title e.anime = normalize_title title →
      e.episodes ≤ 0) :
    cachedEpisodes history title = 0 := by
  obtain ⟨h1, h2, h3⟩ := cachedFold_spec title history 0
  rcases h2 with h | ⟨e, he, hm, hv⟩
  · exact h
  · have := hno e he hm
    unfold cachedEpisodes
    omega

/-- A search collaborator whose requests always raise. -/
def noSearch : SearchFn := fun _ _ => .error ()

/-- Well-formedness of an in-progress group relative to the files processed
so far: a nonempty episode list, duplicate-free file-map keys, file-map
keys tracking exactly the downloaded episode numbers, and every episode
number arising from some processed file's parsed stem. -/
def GroupWF (files : List LibFile) (g : Group) : Prop :=
  g.downloaded_episodes ≠ [] ∧
  (g.files_by_episode.map Prod.fst).Nodup ∧
  (∀ n, n ∈ g.files_by_episode.map Prod.fst ↔ n ∈ g.downloaded_episodes) ∧
  (∀ n ∈ g.downloaded_episodes, ∃ f ∈ files, (parseStem f.stem).2 = n)

lemma mem_dictInsert_keys {k : Nat} {v : String} {n : Nat} :
    ∀ (l : List (Nat × String)),
      (n ∈ (dictInsert k v l).map Prod.fst ↔ n = k ∨ n ∈ l.map Prod.fst) := by
  intro l
  induction l with
  | nil => simp [dictInsert]
  | cons kv rest ih =>
    rw [show dictInsert k v (kv :: rest) =
      if kv.1 = k then (k, v) :: rest else kv :: dictInsert k v rest from rfl]
    by_cases h : kv.1 = k
    · subst h
      rw [if_pos rfl]
      simp only [List.map_cons, List.mem_cons]
      tauto
    · rw [if_neg h]
      simp only [List.map_cons, List.mem_cons, ih]
      tauto

lemma dictInsert_keys_nodup {k : Nat} {v : String} :
    ∀ {l : List (Nat × String)}, (l.map Prod.fst).Nodup →
      ((dictInsert k v l).map Prod.fst).Nodup := by
  intro l
  induction l with
  | nil => intro _; simp [dictInsert]
  | cons kv rest ih =>
    intro h
    simp only [List.map_cons, List.nodup_cons] at h
    rw [show dictInsert k v (kv :: rest) =
      if kv.1 = k then (k, v) :: rest else kv :: dictInsert k v rest from rfl]
    by_cases hk : kv.1 = k
    · rw [if_pos hk]
      simp only [List.map_cons, List.nodup_cons]
      exact ⟨by rw [← hk]; exact h.1, h.2⟩
    · rw [if_neg hk]
      simp only [List.map_cons, List.nodup_cons]
      refine ⟨?_, ih h.2⟩
      rw [mem_dictInsert_keys]
      push_neg
      exact ⟨hk, h.1⟩

lemma groupWF_update {files0 : List LibFile} {f : LibFile} {g : Group}
    (hf : f ∈ files0) (h : GroupWF files0 g) :
    GroupWF files0
      { g with
        downloaded_episodes := g.downloaded_episodes ++ [(parseStem f.stem).2]
        files_by_episode := dictInsert (parseStem f.stem).2 f.name g.files_by_episode
        latest_mtime := max g.latest_mtime f.mtime } := by
  obtain ⟨w1, w2, w3, w4⟩ := h
  refine ⟨by simp, dictInsert_keys_nodup w2, ?_, ?_⟩
  · intro n
    dsimp only
    rw [mem_dictInsert_keys, List.mem_append, List.mem_singleton, w3 n]
    tauto
  · intro n hn
    dsimp only at hn
    rcases List.mem_append.mp hn with h' | h'
    · exact w4 n h'
    · rw [List.mem_singleton] at h'
      exact ⟨f, hf, h'.symm⟩

lemma groupWF_new {files0 : List LibFile} {f : LibFile} (hf : f ∈ files0) :
    GroupWF files0
      { title := (parseStem f.stem).1
        downloaded_episodes := [(parseStem f.stem).2]
        files_by_episode := [((parseStem f.stem).2, f.name)]
        latest_mtime := max 0 f.mtime } := by
  refine ⟨by simp, by simp, by intro n; simp, ?_⟩
  intro n hn
  rw [List.mem_singleton] at hn
  exact ⟨f, hf, hn.symm⟩

lemma addFile_wf {files0 : List LibFile} {gs : List Group} {f : LibFile}
    (hf : f ∈ files0) (hwf : ∀ g ∈ gs, GroupWF files0 g) :
    ∀ g ∈ addFile gs f, GroupWF files0 g := by
  intro g hg
  unfold addFile at hg
  split at hg
  · obtain ⟨g0, hg0, rfl⟩ := List.mem_map.mp hg
    by_cases ht : g0.title = (parseStem f.stem).1
    · rw [if_pos ht]
      exact groupWF_update hf (hwf g0 hg0)
    · rw [if_neg ht]
      exact hwf g0 hg0
  · rcases List.mem_append.mp hg with h' | h'
    · exact hwf g h'
    · rw [List.mem_singleton] at h'
      subst h'
      exact groupWF_new hf

lemma foldl_addFile_wf_aux (files0 : List LibFile) :
    ∀ (fs : List LibFile) (gs : List Group), (∀ x ∈ fs, x ∈ files0) →
      (∀ g ∈ gs, GroupWF files0 g) →
      ∀ g ∈ fs.foldl addFile gs, GroupWF files0 g := by
  intro fs
  induction fs with
  | nil => intro gs _ hwf; exact hwf
  | cons f fs' ih =>
    intro gs hsub hwf
    rw [List.foldl_cons]
    exact ih (addFile gs f)
      (fun x hx => hsub x (List.mem_cons_of_mem f hx))
      (addFile_wf (hsub f (List.mem_cons_self f fs')) hwf)

lemma foldl_addFile_wf (files : List LibFile) :
    ∀ g ∈ files.foldl addFile [], GroupWF files g :=
  foldl_addFile_wf_aux files files [] (fun _ hx => hx)
    (fun g hg => absurd hg (List.not_mem_nil g))

lemma mem_library_entry {files : List LibFile} {history : List HistoryEntry}
    {search : SearchFn} {entry : LibraryEntry}
    (h : entry ∈ list_library_groups files history search) :
    ∃ g ∈ files.foldl addFile [], entry = finalizeGroup history search g := by
  unfold list_library_groups at h
  have hm := (List.perm_insertionSort _ _).mem_iff.mp h
  obtain ⟨g, hg, heq⟩ := List.mem_map.mp hm
  exact ⟨g, hg, heq.symm⟩

lemma foldl_max_init_le (l : List Nat) : ∀ a : Nat, a ≤ l.foldl Nat.max a := by
  induction l with
  | nil => intro a; exact le_refl a
  | cons c l' ih =>
    intro a
    rw [List.foldl_cons]
    exact le_trans (Nat.le_max_left a c) (ih (Nat.max a c))

lemma le_foldl_max {n : Nat} :
    ∀ (l : List Nat), n ∈ l → ∀ a, n ≤ l.foldl Nat.max a := by
  intro l
  induction l with
  | nil => intro h; exact absurd h (List.not_mem_nil n)
  | cons c l' ih =>
    intro h a
    rw [List.foldl_cons]
    rcases List.mem_cons.mp h with rfl | h'
    · exact le_trans (Nat.le_max_right a n) (foldl_max_init_le l' (Nat.max a n))
    · exact ih h' (Nat.max a c)

lemma le_listMaxNat {l : List Nat} {n : Nat} (h : n ∈ l) : n ≤ listMaxNat l :=
  le_foldl_max l h 0

lemma mem_downloadedSorted {g : Group} {n : Nat} :
    n ∈ downloadedSorted g ↔ n ∈ g.downloaded_episodes := by
  unfold downloadedSorted
  rw [(List.perm_insertionSort _ _).mem_iff, List.mem_dedup]

lemma downloadedSorted_ne_nil {g : Group} (h : g.downloaded_episodes ≠ []) :
    downloadedSorted g ≠ [] := by
  intro hs
  obtain ⟨x, hx⟩ := List.exists_mem_of_ne_nil _ h
  have hx2 : x ∈ downloadedSorted g := mem_downloadedSorted.mpr hx
  rw [hs] at hx2
  exact absurd hx2 (List.not_mem_nil x)

lemma downloadedSorted_nodup (g : Group) : (downloadedSorted g).Nodup := by
  unfold downloadedSorted
  exact ((List.perm_insertionSort _ _).nodup_iff).mpr (List.nodup_dedup _)

lemma downloadedSorted_sorted (g : Group) :
    (downloadedSorted g).Sorted (· < ·) := by
  have h1 : (downloadedSorted g).Sorted (· ≤ ·) := List.sorted_insertionSort _ _
  have h2 : (downloadedSorted g).Pairwise (· ≠ ·) := downloadedSorted_nodup g
  exact (h1.and h2).imp (fun hab => lt_of_le_of_ne hab.1 hab.2)

/-- C2 (amended): every downloaded episode number of a library entry is at
most `total_episode_count` (the count is raised to the maximum downloaded
number when inference yields less); the lower bound `1 ≤ n` additionally
holds whenever every scanned file's parsed episode number is positive. -/
theorem library_episode_numbers_bounded (files : List LibFile)
    (history : List HistoryEntry) (search : SearchFn) :
    ∀ entry ∈ list_library_groups files history search,
      ∀ n ∈ entry.downloaded_episodes,
        (n : Int) ≤ entry.total_episodes ∧
        ((∀ f ∈ files, 1 ≤ (parseStem f.stem).2) → 1 ≤ n) := by
  intro entry hentry n hn
  obtain ⟨g, hg, rfl⟩ := mem_library_entry hentry
  obtain ⟨w1, w2, w3, w4⟩ := foldl_addFile_wf files g hg
  have hn' : n ∈ downloadedSorted g := hn
  constructor
  · have hmax : n ≤ listMaxNat (downloadedSorted g) := le_listMaxNat hn'
    have hne := downloadedSorted_ne_nil w1
    have hmd : maxDownloaded g = (listMaxNat (downloadedSorted g) : Int) := by
      unfold maxDownloaded
      rw [if_neg hne]
    show (n : Int) ≤ (finalizeGroup history search g).total_episodes
    unfold finalizeGroup
    dsimp only
    split
    · rw [hmd]
      exact_mod_cast hmax
    next hlt =>
      push_neg at hlt
      calc (n : Int) ≤ maxDownloaded g := by rw [hmd]; exact_mod_cast hmax
        _ ≤ _ := hlt
  · intro hall
    obtain ⟨f, hfm, hfe⟩ := w4 n (mem_downloadedSorted.mp hn')
    rw [← hfe]
    exact hall f hfm

theorem library_episode_numbers_bounded_witness :
    ∃ entry ∈ list_library_groups [⟨"B Episode 2", "B Episode 2.mp4", 1⟩] [] noSearch,
      (2 : Nat) ∈ entry.downloaded_episodes ∧
      ((2 : Nat) : Int) ≤ entry.total_episodes := by
  refine ⟨⟨"B", 2, [2], [(2, "B Episode 2.mp4")], 1, 1⟩, by decide, by decide, ?_⟩
  exact (library_episode_numbers_bounded
    [⟨"B Episode 2", "B Episode 2.mp4", 1⟩] [] noSearch
    ⟨"B", 2, [2], [(2, "B Episode 2.mp4")], 1, 1⟩ (by decide) 2 (by decide)).1

/-- C2 counterexample: with the single video file `Show Episode 0.mp4` (and
an empty history and failing search), the library entry has downloaded
episode number 0, which violates `1 ≤ n`, so `downloaded_episodes` is not
a subset of `[1, total_episode_count]`. -/
theorem library_subset_invariant_counterexample :
    ∃ entry ∈ list_library_groups
      [⟨"Show Episode 0", "Show Episode 0.mp4", 5⟩] [] noSearch,
      ∃ n ∈ entry.downloaded_episodes, ¬(1 ≤ n) := by
  exact ⟨⟨"Show", 0, [0], [(0, "Show Episode 0.mp4")], 1, 5⟩, by decide, 0,
    by decide, by decide⟩

/-- C10: in every library snapshot, each entry's `downloaded_episodes` is
strictly ascending (sorted, duplicate-free), `downloaded_count` is its
length, and `files_by_episode` has duplicate-free keys that are exactly the
downloaded episode numbers — one retained file per distinct episode. -/
theorem library_entry_episode_structure (files : List LibFile)
    (history : List HistoryEntry) (search : SearchFn) :
    ∀ entry ∈ list_library_groups files history search,
      entry.downloaded_episodes.Sorted (· < ·) ∧
      entry.downloaded_count = entry.downloaded_episodes.length ∧
      (entry.files_by_episode.map Prod.fst).Nodup ∧
      (∀ n, n ∈ entry.files_by_episode.map Prod.fst ↔
        n ∈ entry.downloaded_episodes) := by
  intro entry hentry
  obtain ⟨g, hg, rfl⟩ := mem_library_entry hentry
  obtain ⟨w1, w2, w3, w4⟩ := foldl_addFile_wf files g hg
  refine ⟨downloadedSorted_sorted g, rfl, w2, ?_⟩
  intro n
  show n ∈ g.files_by_episode.map Prod.fst ↔ n ∈ downloadedSorted g
  rw [w3 n, mem_downloadedSorted]

theorem library_entry_episode_structure_witness :
    ∃ entry ∈ list_library_groups
      [⟨"A Episode 1", "A Episode 1.mp4", 3⟩,
       ⟨"A Episode 1", "A Episode 1.mkv", 4⟩,
       ⟨"A Episode 2", "A Episode 2.mp4", 9⟩] [] noSearch,
      entry.downloaded_episodes.Sorted (· < ·) ∧
      entry.downloaded_count = entry.downloaded_episodes.length ∧
      (entry.files_by_episode.map Prod.fst).Nodup ∧
      (∀ n, n ∈ entry.files_by_episode.map Prod.fst ↔
        n ∈ entry.downloaded_episodes) := by
  refine ⟨⟨"A", 2, [1, 2], [(1, "A Episode 1.mkv"), (2, "A Episode 2.mp4")], 2, 9⟩,
    by decide, ?_⟩
  exact library_entry_episode_structure
    [⟨"A Episode 1", "A Episode 1.mp4", 3⟩, ⟨"A Episode 1", "A Episode 1.mkv", 4⟩,
     ⟨"A Episode 2", "A Episode 2.mp4", 9⟩] [] noSearch
    ⟨"A", 2, [1, 2], [(1, "A Episode 1.mkv"), (2, "A Episode 2.mp4")], 2, 9⟩ (by decide)

/-- C3: total-episode inference priority.  (1) A positive recorded episode
count for a normalized title match in history wins, taking the largest
recorded value; (2) otherwise a catalog search is tried in `dub` then `sub`
mode and the best textual match's count is used, where the best match is
the exact normalized match first, else a result related by substring
containment either way, else the first result; (3) when both fail the
inference returns 0 and the library listing uses the maximum downloaded
episode number for the entry. -/
theorem infer_total_episodes_priority (history : List HistoryEntry)
    (search : SearchFn) (title : String) :
    ((∃ e ∈ history, normalize_title e.anime = normalize_title title ∧
        0 < e.episodes) →
      0 < infer_total_episodes history search title ∧
      (∃ e ∈ history, normalize_title e.anime = normalize_title title ∧
        e.episodes = infer_total_episodes history search title) ∧
      (∀ e ∈ history, normalize_title e.anime = normalize_title title →
        e.episodes ≤ infer_total_episodes history search title)) ∧
    ((∀ e ∈ history, normalize_title e.anime = normalize_title title →
        e.episodes ≤ 0) →
      (∀ rs m, search title "dub" = .ok rs → best_search_match title rs = some m →
        infer_total_episodes history search title = m.episodes) ∧
      (tryMode search title "dub" = none →
        ∀ rs m, search title "sub" = .ok rs → best_search_match title rs = some m →
          infer_total_episodes history search title = m.episodes) ∧
      (tryMode search title "dub" = none → tryMode search title "sub" = none →
        infer_total_episodes history search title = 0)) ∧
    (∀ rs, rs ≠ [] → ∃ m, best_search_match title rs = some m ∧ m ∈ rs ∧
      ((∃ r ∈ rs, normalize_title r.name = normalize_title title) →
        normalize_title m.name = normalize_title title) ∧
      ((∀ r ∈ rs, normalize_title r.name ≠ normalize_title title) →
        (∃ r ∈ rs, (strContains (normalize_title r.name) (normalize_title title) ||
          strContains (normalize_title title) (normalize_title r.name)) = true) →
        (strContains (normalize_title m.name) (normalize_title title) ||
          strContains (normalize_title title) (normalize_title m.name)) = true) ∧
      ((∀ r ∈ rs, normalize_title r.name ≠ normalize_title title) →
        (∀ r ∈ rs, (strContains (normalize_title r.name) (normalize_title title) ||
          strContains (normalize_title title) (normalize_title r.name)) = false) →
        rs.head? = some m)) ∧
    (∀ (files : List LibFile) (entry : LibraryEntry),
      entry ∈ list_library_groups files history search →
      infer_total_episodes history search entry.title = 0 →
      entry.total_episodes = (listMaxNat entry.downloaded_episodes : Int)) := by
  refine ⟨?_, ?_, ?_, ?_⟩
  · rintro ⟨e, he, hm, hv⟩
    obtain ⟨h1, h2, h3⟩ := cachedFold_spec title history 0
    have hpos : 0 < cachedEpisodes history title :=
      lt_of_lt_of_le hv (h3 e he hm)
    have hinfer : infer_total_episodes history search title =
        cachedEpisodes history title := by
      unfold infer_total_episodes
      rw [if_pos hpos]
    rw [hinfer]
    refine ⟨hpos, ?_, fun e' he' hm' => h3 e' he' hm'⟩
    rcases h2 with h | hex
    · unfold cachedEpisodes at hpos
      omega
    · exact hex
  · intro hno
    have hzero := cachedEpisodes_eq_zero_of_no_match hno
    have hneg : ¬ 0 < cachedEpisodes history title := by omega
    refine ⟨?_, ?_, ?_⟩
    · intro rs m hok hbest
      unfold infer_total_episodes
      rw [if_neg hneg]
      have : tryMode search title "dub" = some m.episodes := by
        unfold tryMode
        simp only [hok, hbest]
      rw [this]
    · intro hdub rs m hok hbest
      unfold infer_total_episodes
      rw [if_neg hneg, hdub]
      have : tryMode search title "sub" = some m.episodes := by
        unfold tryMode
        simp only [hok, hbest]
      rw [this]
    · intro hdub hsub
      unfold infer_total_episodes
      rw [if_neg hneg, hdub, hsub]
  · intro rs hne
    unfold best_search_match
    rw [if_neg hne]
    cases hex : rs.find? (fun item =>
        decide (normalize_title item.name = normalize_title title)) with
    | some m =>
      refine ⟨m, rfl, List.mem_of_find?_eq_some hex, ?_, ?_, ?_⟩
      · intro _
        have := List.find?_some hex
        simpa using this
      · intro hnoex _
        exfalso
        have hmm := List.find?_some hex
        simp only [decide_eq_true_eq] at hmm
        exact absurd hmm (hnoex m (List.mem_of_find?_eq_some hex))
      · intro hnoex _
        exfalso
        have hmm := List.find?_some hex
        simp only [decide_eq_true_eq] at hmm
        exact absurd hmm (hnoex m (List.mem_of_find?_eq_some hex))
    | none =>
      have hnoex := List.find?_eq_none.mp hex
      cases hcon : rs.find? (fun item =>
          strContains (normalize_title item.name) (normalize_title title) ||
          strContains (normalize_title title) (normalize_title item.name)) with
      | some m =>
        refine ⟨m, rfl, List.mem_of_find?_eq_some hcon, ?_, ?_, ?_⟩
        · rintro ⟨r, hr, hrm⟩
          exact absurd (by simpa using hrm) (by simpa using hnoex r hr)
        · intro _ _
          have hb := List.find?_some hcon
          simpa using hb
        · intro _ hnocon
          exfalso
          have hb : (strContains (normalize_title m.name) (normalize_title title) ||
              strContains (normalize_title title) (normalize_title m.name)) = true := by
            simpa using List.find?_some hcon
          simp [hnocon m (List.mem_of_find?_eq_some hcon)] at hb
      | none =>
        have hnocon := List.find?_eq_none.mp hcon
        cases rs with
        | nil => exact absurd rfl hne
        | cons r0 rs' =>
          refine ⟨r0, rfl, List.mem_cons_self r0 rs', ?_, ?_, ?_⟩
          · rintro ⟨r, hr, hrm⟩
            exact absurd (by simpa using hrm) (by simpa using hnoex r hr)
          · rintro _ ⟨r, hr, hrm⟩
            exact absurd hrm (by simpa using hnocon r hr)
          · intro _ _
            rfl
  · intro files entry hentry hzero
    obtain ⟨g, hg, rfl⟩ := mem_library_entry hentry
    obtain ⟨w1, -, -, -⟩ := foldl_addFile_wf files g hg
    have hne := downloadedSorted_ne_nil w1
    have hmd : maxDownloaded g = (listMaxNat (downloadedSorted g) : Int) := by
      unfold maxDownloaded
      rw [if_neg hne]
    have htitle : (finalizeGroup history search g).title = g.title := rfl
    rw [htitle] at hzero
    show (if infer_total_episodes history search g.title < maxDownloaded g
      then maxDownloaded g else infer_total_episodes history search g.title) =
      (listMaxNat (downloadedSorted g) : Int)
    rw [hzero, hmd]
    split
    · rfl
    next hge =>
      push_neg at hge
      have hnn : (0 : Int) ≤ (listMaxNat (downloadedSorted g) : Int) :=
        Int.ofNat_nonneg _
      omega


theorem infer_total_episodes_priority_witness :
    (∃ e ∈ [HistoryEntry.mk "t" "download_season" "Show  A" 12],
      normalize_title e.anime = normalize_title "show a" ∧ 0 < e.episodes) ∧
    0 < infer_total_episodes [HistoryEntry.mk "t" "download_season" "Show  A" 12]
      noSearch "show a" ∧
    infer_total_episodes [HistoryEntry.mk "t" "download_season" "Show  A" 12]
      noSearch "show a" = 12 := by
  have h := (infer_total_episodes_priority
    [HistoryEntry.mk "t" "download_season" "Show  A" 12] noSearch "show a").1
    ⟨_, List.mem_cons_self _ _, by decide, by decide⟩
  exact ⟨⟨_, List.mem_cons_self _ _, by decide, by decide⟩, h.1, by decide⟩

end AniCli
